import Mathlib

/-!
Verification of the PySPOD SPOD engine specification against a shallow
embedding of the source code (pyspod/spod/standard.py,
pyspod/auxiliary/pod_standard.py, pyspod/spod_low_ram.py).

Machine integers and floats are modelled over the rationals; the FFT and
dense eigensolver are external primitives per the specification and are
treated as parameters where the claims do not depend on their values.
-/

namespace PySPOD

/-! ## Block planner (Standard._compute_blocks and the base-class sizing) -/

/-- Modelled from the spec: the block count computed by the SPOD base class,
which is not under src (only its subclasses are). The spec states
n_blocks = floor((nt - n_overlap) / (n_dft - n_overlap)). -/
def nBlocks (nt n_dft n_overlap : ℕ) : ℕ :=
  (nt - n_overlap) / (n_dft - n_overlap)

/-- Embeds the offset computation of Standard._compute_blocks:
offset = min(i_blk * (n_dft - n_overlap) + n_dft, nt) - n_dft. -/
def blockOffset (nt n_dft n_overlap i_blk : ℕ) : ℕ :=
  min (i_blk * (n_dft - n_overlap) + n_dft) nt - n_dft

/-! ## Windowed DFT stage: mean subtraction, variance guard (Standard._compute_blocks) -/

/-- Column (per spatial point) mean of a block over its n rows, as
np.mean(Q_blk, axis=0) computes it. -/
def colMean (n : ℕ) (Q : ℕ → ℕ → ℚ) (j : ℕ) : ℚ :=
  (∑ i ∈ Finset.range n, Q i j) / (n : ℚ)

/-- Embeds the longtime-mean subtraction Q_blk = Q_blk - t_mean. -/
def subtractTMean (Q : ℕ → ℕ → ℚ) (t_mean : ℕ → ℚ) : ℕ → ℕ → ℚ :=
  fun i j => Q i j - t_mean j

/-- Embeds the blockwise-mean subtraction Q_blk = Q_blk - np.mean(Q_blk, axis=0). -/
def blockwiseCenter (n_dft : ℕ) (Q : ℕ → ℕ → ℚ) : ℕ → ℕ → ℚ :=
  fun i j => Q i j - colMean n_dft Q j

/-- Double-precision machine epsilon, np.finfo(float).eps = 2^-52. -/
def machineEps : ℚ := 1 / 2 ^ 52

/-- Embeds the pointwise temporal variance
Q_var = sum((Q_blk - mean)^2, axis=0) / (n_dft - 1). -/
def qVar (n_dft : ℕ) (Q : ℕ → ℕ → ℚ) (j : ℕ) : ℚ :=
  (∑ i ∈ Finset.range n_dft, (Q i j - colMean n_dft Q j) ^ 2) / ((n_dft : ℚ) - 1)

/-- Embeds the degenerate-variance substitution
Q_var[Q_var < 4 * np.finfo(float).eps] = 1. -/
def guardVar (v : ℚ) : ℚ :=
  if v < 4 * machineEps then 1 else v

/-- Embeds the normalization Q_blk = Q_blk / Q_var after the substitution. -/
def normalizeBlock (n_dft : ℕ) (Q : ℕ → ℕ → ℚ) : ℕ → ℕ → ℚ :=
  fun i j => Q i j / guardVar (qVar n_dft Q j)

/-! ## Theorems: C1 block planner -/

/-- C1 counterexample: at nt = 10, n_dft = 4, n_overlap = 0 (a configuration
with n_overlap < n_dft and n_dft <= nt) the final block is block index 1 and
covers samples 4..7, so it ends at 7, not at nt - 1 = 9. The claim that the
final block ends at nt - 1 is false on the code. -/
theorem C1_counterexample :
    0 < 4 - 0 ∧ (4 : ℕ) ≤ 10 ∧
    nBlocks 10 4 0 = 2 ∧
    blockOffset 10 4 0 (nBlocks 10 4 0 - 1) = 4 ∧
    blockOffset 10 4 0 (nBlocks 10 4 0 - 1) + 4 - 1 ≠ 10 - 1 := by
  decide

/-- C1 amended: for n_overlap < n_dft and n_dft <= nt, the planner produces
n_blocks = floor((nt - n_overlap) / (n_dft - n_overlap)) >= 1 blocks; block i
has offset min(i*(n_dft-n_overlap) + n_dft, nt) - n_dft = i*(n_dft-n_overlap),
the first block starts at 0, every block has exactly n_dft samples inside
[0, nt); the final block ends at nt - 1 - ((nt - n_overlap) mod
(n_dft - n_overlap)), which equals nt - 1 exactly when (n_dft - n_overlap)
divides (nt - n_overlap). -/
theorem C1_block_planner (nt n_dft n_overlap : ℕ)
    (h1 : n_overlap < n_dft) (h2 : n_dft ≤ nt) :
    1 ≤ nBlocks nt n_dft n_overlap ∧
    blockOffset nt n_dft n_overlap 0 = 0 ∧
    (∀ i, i < nBlocks nt n_dft n_overlap →
      blockOffset nt n_dft n_overlap i = i * (n_dft - n_overlap) ∧
      blockOffset nt n_dft n_overlap i + n_dft ≤ nt) ∧
    blockOffset nt n_dft n_overlap (nBlocks nt n_dft n_overlap - 1) + n_dft
      = nt - (nt - n_overlap) % (n_dft - n_overlap) ∧
    ((nt - n_overlap) % (n_dft - n_overlap) = 0 ↔
      blockOffset nt n_dft n_overlap (nBlocks nt n_dft n_overlap - 1) + n_dft = nt) := by
  have hs : 0 < n_dft - n_overlap := Nat.sub_pos_of_lt h1
  have hnd : (n_dft - n_overlap) + n_overlap = n_dft := Nat.sub_add_cancel h1.le
  have hov : n_overlap ≤ nt := le_trans h1.le h2
  have hq1 : 1 ≤ nBlocks nt n_dft n_overlap := by
    have h' : n_dft - n_overlap ≤ nt - n_overlap := Nat.sub_le_sub_right h2 _
    have := (Nat.one_le_div_iff hs).mpr h'
    simpa [nBlocks] using this
  have hdm : nBlocks nt n_dft n_overlap * (n_dft - n_overlap)
      + (nt - n_overlap) % (n_dft - n_overlap) = nt - n_overlap := by
    simpa [nBlocks, mul_comm] using Nat.div_add_mod (nt - n_overlap) (n_dft - n_overlap)
  have hrlt : (nt - n_overlap) % (n_dft - n_overlap) < n_dft - n_overlap := Nat.mod_lt _ hs
  -- every in-range block index keeps the min inactive
  have key : ∀ i, i < nBlocks nt n_dft n_overlap → i * (n_dft - n_overlap) + n_dft ≤ nt := by
    intro i hi
    have hi1 : i + 1 ≤ nBlocks nt n_dft n_overlap := hi
    have hmul : (i + 1) * (n_dft - n_overlap)
        ≤ nBlocks nt n_dft n_overlap * (n_dft - n_overlap) :=
      Nat.mul_le_mul_right _ hi1
    have hsucc : (i + 1) * (n_dft - n_overlap)
        = i * (n_dft - n_overlap) + (n_dft - n_overlap) := by ring
    omega
  have hoffs : ∀ i, i < nBlocks nt n_dft n_overlap →
      blockOffset nt n_dft n_overlap i = i * (n_dft - n_overlap) := by
    intro i hi
    have h := key i hi
    simp only [blockOffset]
    rw [min_eq_left h]
    omega
  have hlast : nBlocks nt n_dft n_overlap - 1 < nBlocks nt n_dft n_overlap := by omega
  have hle : n_dft - n_overlap ≤ nBlocks nt n_dft n_overlap * (n_dft - n_overlap) := by
    calc n_dft - n_overlap = 1 * (n_dft - n_overlap) := (one_mul _).symm
    _ ≤ nBlocks nt n_dft n_overlap * (n_dft - n_overlap) := Nat.mul_le_mul_right _ hq1
  have hspecial : blockOffset nt n_dft n_overlap (nBlocks nt n_dft n_overlap - 1) + n_dft
      = nt - (nt - n_overlap) % (n_dft - n_overlap) := by
    rw [hoffs _ hlast, Nat.sub_mul]
    omega
  refine ⟨hq1, ?_,
    fun i hi => ⟨hoffs i hi, by have := key i hi; rw [hoffs i hi]; omega⟩,
    hspecial, ?_⟩
  · have h0 := hoffs 0 hq1
    simpa using h0
  · rw [hspecial]
    omega

/-- Witness for C1_block_planner at nt = 12, n_dft = 4, n_overlap = 2. -/
theorem C1_block_planner_witness :
    1 ≤ nBlocks 12 4 2 ∧
    blockOffset 12 4 2 0 = 0 ∧
    (∀ i, i < nBlocks 12 4 2 →
      blockOffset 12 4 2 i = i * (4 - 2) ∧
      blockOffset 12 4 2 i + 4 ≤ 12) ∧
    blockOffset 12 4 2 (nBlocks 12 4 2 - 1) + 4 = 12 - (12 - 2) % (4 - 2) ∧
    ((12 - 2) % (4 - 2) = 0 ↔ blockOffset 12 4 2 (nBlocks 12 4 2 - 1) + 4 = 12) :=
  C1_block_planner 12 4 2 (by decide) (by decide)

/-! ## Theorems: C8 variance guard -/

/-- C8: when data normalization is enabled, the divisor actually used for
every spatial point of every block is the guarded variance, which is never
below 4 times machine epsilon: any variance entry below that threshold is
replaced by 1 before the division, and the division is exact against the
guarded divisor (so no division by near-zero is ever performed). -/
theorem C8_variance_guard (n_dft : ℕ) (Q : ℕ → ℕ → ℚ) (j : ℕ) :
    4 * machineEps ≤ guardVar (qVar n_dft Q j) ∧
    guardVar (qVar n_dft Q j) ≠ 0 ∧
    (qVar n_dft Q j < 4 * machineEps → guardVar (qVar n_dft Q j) = 1) ∧
    (∀ i, normalizeBlock n_dft Q i j * guardVar (qVar n_dft Q j) = Q i j) := by
  have heps1 : 4 * machineEps ≤ (1 : ℚ) := by norm_num [machineEps]
  have hge : 4 * machineEps ≤ guardVar (qVar n_dft Q j) := by
    unfold guardVar
    split
    · exact heps1
    · next h => exact le_of_not_lt h
  have hpos : (0 : ℚ) < guardVar (qVar n_dft Q j) := by
    have h0 : (0 : ℚ) < 4 * machineEps := by norm_num [machineEps]
    exact lt_of_lt_of_le h0 hge
  refine ⟨hge, ne_of_gt hpos, ?_, ?_⟩
  · intro h
    simp [guardVar, h]
  · intro i
    simp only [normalizeBlock]
    exact div_mul_cancel₀ _ (ne_of_gt hpos)

/-- Witness for C8_variance_guard at n_dft = 2, a constant block (whose
variance is 0, below the threshold, hence replaced by 1). -/
theorem C8_variance_guard_witness :
    4 * machineEps ≤ guardVar (qVar 2 (fun _ _ => 5) 0) ∧
    guardVar (qVar 2 (fun _ _ => 5) 0) ≠ 0 ∧
    (qVar 2 (fun _ _ => 5) 0 < 4 * machineEps → guardVar (qVar 2 (fun _ _ => 5) 0) = 1) ∧
    (∀ i, normalizeBlock 2 (fun _ _ => 5) i 0 * guardVar (qVar 2 (fun _ _ => 5) 0) = 5) :=
  C8_variance_guard 2 (fun _ _ => 5) 0

/-! ## Theorems: C10 blockwise mean independence of the longtime mean -/

/-- C10: when mean_type is blockwise, the centered block is independent of
the longtime mean: subtracting t_mean and then the per-block column mean of
the residual equals subtracting the per-block column mean of the raw block. -/
theorem C10_blockwise_mean_invariance (n_dft : ℕ) (Q : ℕ → ℕ → ℚ)
    (t_mean : ℕ → ℚ) (h : 0 < n_dft) (i j : ℕ) :
    blockwiseCenter n_dft (subtractTMean Q t_mean) i j = blockwiseCenter n_dft Q i j := by
  have hn : ((n_dft : ℚ)) ≠ 0 := by
    exact_mod_cast Nat.pos_iff_ne_zero.mp h
  have hmean : colMean n_dft (subtractTMean Q t_mean) j = colMean n_dft Q j - t_mean j := by
    simp only [colMean, subtractTMean]
    rw [Finset.sum_sub_distrib, Finset.sum_const, Finset.card_range, sub_div]
    congr 1
    rw [nsmul_eq_mul, mul_div_assoc]
    field_simp
  simp only [blockwiseCenter, subtractTMean, hmean]
  ring

/-- Witness for C10_blockwise_mean_invariance at n_dft = 2 with a concrete
block and longtime mean. -/
theorem C10_blockwise_mean_invariance_witness :
    blockwiseCenter 2 (subtractTMean (fun i j => (i : ℚ) + j) (fun j => (j : ℚ) + 3)) 0 1
      = blockwiseCenter 2 (fun i j => (i : ℚ) + j) 0 1 :=
  C10_blockwise_mean_invariance 2 (fun i j => (i : ℚ) + j) (fun j => (j : ℚ) + 3)
    (by decide) 0 1

/-! ## Weights handling (POD_standard.initialize_fit) -/

/-- The weights argument as the source discriminates it: a dict carrying an
array, a bare array (any non-dict value, which the isinstance check sends to
the else branch), or None. -/
inductive WeightsInput where
  | wdict : List ℚ → WeightsInput
  | warray : List ℚ → WeightsInput
  | wnone : WeightsInput

/-- Embeds the weights check of POD_standard.initialize_fit: only a dict is
validated against the flattened spatial size nx * nv; any other value is
replaced by uniform weights of ones (with a warning). -/
def initializeWeights : WeightsInput → ℕ → ℕ → Except String (List ℚ)
  | WeightsInput.wdict ws, nx, nv =>
      if ws.length ≠ nx * nv then
        Except.error "parameter weights must have the same size as flattened data spatial dimensions"
      else Except.ok ws
  | WeightsInput.warray _, nx, nv => Except.ok (List.replicate (nx * nv) 1)
  | WeightsInput.wnone, nx, nv => Except.ok (List.replicate (nx * nv) 1)

/-! ## Theorems: C4 weights validation, C9 non-dict substitution -/

/-- C4 counterexample: a plain (non-dict) 10-element weights array against a
12-point grid with 1 variable does not raise; initialization replaces it by
uniform weights and proceeds, contradicting the claim that every mismatched
weights array raises a configuration error. -/
theorem C4_counterexample :
    (List.replicate 10 (1 : ℚ)).length ≠ 12 * 1 ∧
    initializeWeights (WeightsInput.warray (List.replicate 10 1)) 12 1
      = Except.ok (List.replicate 12 1) :=
  ⟨by decide, rfl⟩

/-- C4 amended: only dict-form weights are validated: a dict whose array size
differs from nx * nv raises before any computation, while any non-dict
weights value (mismatched arrays included) is silently replaced by uniform
weights of ones of flattened size nx * nv and fitting proceeds. -/
theorem C4_weights_validation (ws : List ℚ) (nx nv : ℕ)
    (h : ws.length ≠ nx * nv) :
    (∃ msg, initializeWeights (WeightsInput.wdict ws) nx nv = Except.error msg) ∧
    initializeWeights (WeightsInput.warray ws) nx nv
      = Except.ok (List.replicate (nx * nv) 1) := by
  constructor
  · refine ⟨"parameter weights must have the same size as flattened data spatial dimensions", ?_⟩
    simp [initializeWeights, h]
  · rfl

/-- Witness for C4_weights_validation at a 10-element array against nx = 12,
nv = 1. -/
theorem C4_weights_validation_witness :
    (List.replicate 10 (1 : ℚ)).length ≠ 12 * 1 ∧
    ((∃ msg, initializeWeights (WeightsInput.wdict (List.replicate 10 1)) 12 1
        = Except.error msg) ∧
      initializeWeights (WeightsInput.warray (List.replicate 10 1)) 12 1
        = Except.ok (List.replicate (12 * 1) 1)) :=
  ⟨by decide, C4_weights_validation (List.replicate 10 1) 12 1 (by decide)⟩

/-- C9: for every weights argument that is not a dict (None or a plain
array), initialization does not raise: it substitutes uniform weights of
ones with flattened size nx * nv, and fitting proceeds with those. -/
theorem C9_nondict_weights (ws : List ℚ) (nx nv : ℕ) :
    initializeWeights (WeightsInput.warray ws) nx nv
      = Except.ok (List.replicate (nx * nv) 1) ∧
    initializeWeights WeightsInput.wnone nx nv
      = Except.ok (List.replicate (nx * nv) 1) ∧
    (List.replicate (nx * nv) (1 : ℚ)).length = nx * nv :=
  ⟨rfl, rfl, List.length_replicate _ _⟩

/-! ## Data-fetch callback (the nested data_handler in POD_standard.initialize_fit) -/

/-- Embeds the default data handler: the two explicit guards, the
equal-bounds single-snapshot branch, and the numpy fancy-indexing error that
occurs when the requested slice runs past the data extent. A snapshot is
abstracted to one rational value. -/
def dataHandler (data : List ℚ) (nt t_0 t_end : ℕ) : Except String (List ℚ) :=
  if t_0 > t_end then Except.error "t_0 cannot be greater than t_end."
  else if t_0 ≥ nt then Except.error "t_0 cannot be greater or equal to time dimension."
  else if t_0 = t_end then
    match data.get? t_0 with
    | some d => Except.ok [d]
    | none => Except.error "IndexError"
  else if t_end ≤ data.length then
    Except.ok ((List.range' t_0 (t_end - t_0)).map (fun i => data.getD i 0))
  else Except.error "IndexError"

/-! ## Theorems: C7 data handler contract -/

/-- C7 counterexample: with one snapshot (nt = 1), the query t_start = 0,
t_end = 2 satisfies neither t_start > t_end nor t_start >= nt, yet the
callback raises (numpy index error on the out-of-range slice), so the
callback does not raise an error exactly when t_start > t_end or
t_start >= nt. -/
theorem C7_counterexample :
    ¬((0 : ℕ) > 2) ∧ ¬((0 : ℕ) ≥ 1) ∧
    dataHandler [5] 1 0 2 = Except.error "IndexError" :=
  ⟨by decide, by decide, rfl⟩

/-- C7 amended: when nt equals the data extent, the callback raises exactly
when t_start > t_end or t_start >= nt or t_end > nt; equal bounds within
range return exactly one snapshot. -/
theorem C7_data_handler (data : List ℚ) (nt t_0 t_end : ℕ)
    (hnt : nt = data.length) :
    ((∃ msg, dataHandler data nt t_0 t_end = Except.error msg) ↔
      (t_0 > t_end ∨ t_0 ≥ nt ∨ t_end > nt)) ∧
    (t_0 = t_end → t_0 < nt →
      dataHandler data nt t_0 t_end = Except.ok [data.getD t_0 0]) ∧
    (t_0 = t_end → t_0 < nt →
      ∀ res, dataHandler data nt t_0 t_end = Except.ok res → res.length = 1) := by
  subst hnt
  have hsingle : t_0 = t_end → t_0 < data.length →
      dataHandler data data.length t_0 t_end = Except.ok [data.getD t_0 0] := by
    intro he hlt
    have h1 : ¬(t_0 > t_end) := by omega
    have h2 : ¬(t_0 ≥ data.length) := by omega
    have hget : data.get? t_0 = some (data.getD t_0 0) := by
      rw [List.getD_eq_getElem _ _ hlt, List.get?_eq_getElem?, List.getElem?_eq_getElem hlt]
    unfold dataHandler
    simp only [if_neg h1, if_neg h2, if_pos he, hget]
  have hiff : (∃ msg, dataHandler data data.length t_0 t_end = Except.error msg) ↔
      (t_0 > t_end ∨ t_0 ≥ data.length ∨ t_end > data.length) := by
    unfold dataHandler
    by_cases h1 : t_0 > t_end
    · simp only [if_pos h1]
      exact ⟨fun _ => Or.inl h1, fun _ => ⟨_, rfl⟩⟩
    · by_cases h2 : t_0 ≥ data.length
      · simp only [if_neg h1, if_pos h2]
        exact ⟨fun _ => Or.inr (Or.inl h2), fun _ => ⟨_, rfl⟩⟩
      · by_cases h3 : t_0 = t_end
        · have hlt : t_0 < data.length := lt_of_not_ge h2
          have hget : data.get? t_0 = some (data.getD t_0 0) := by
            rw [List.getD_eq_getElem _ _ hlt, List.get?_eq_getElem?,
              List.getElem?_eq_getElem hlt]
          simp only [if_neg h1, if_neg h2, if_pos h3, hget]
          constructor
          · rintro ⟨msg, hmsg⟩
            cases hmsg
          · intro hcases
            exfalso
            omega
        · by_cases h4 : t_end ≤ data.length
          · simp only [if_neg h1, if_neg h2, if_neg h3, if_pos h4]
            constructor
            · rintro ⟨msg, hmsg⟩
              cases hmsg
            · intro hcases
              exfalso
              omega
          · simp only [if_neg h1, if_neg h2, if_neg h3, if_neg h4]
            exact ⟨fun _ => Or.inr (Or.inr (lt_of_not_ge h4)), fun _ => ⟨_, rfl⟩⟩
  refine ⟨hiff, hsingle, fun he hlt res hres => ?_⟩
  rw [hsingle he hlt] at hres
  cases hres
  rfl

/-- Witness for C7_data_handler: two snapshots, the equal-bounds in-range
query (1, 1) returns the single snapshot [7]. -/
theorem C7_data_handler_witness :
    (2 : ℕ) = (List.length [(5 : ℚ), 7]) ∧
    (((∃ msg, dataHandler [5, 7] 2 1 1 = Except.error msg) ↔
        ((1 : ℕ) > 1 ∨ (1 : ℕ) ≥ 2 ∨ (1 : ℕ) > 2)) ∧
      ((1 : ℕ) = 1 → (1 : ℕ) < 2 →
        dataHandler [5, 7] 2 1 1 = Except.ok [List.getD [(5 : ℚ), 7] 1 0]) ∧
      ((1 : ℕ) = 1 → (1 : ℕ) < 2 →
        ∀ res, dataHandler [5, 7] 2 1 1 = Except.ok res → res.length = 1)) :=
  ⟨by decide, C7_data_handler [5, 7] 2 1 1 (by decide)⟩

/-! ## Projection stage (POD_standard.reshape_and_remove_mean, compute_coeffs) -/

/-- Embeds the temporal mean X_mean = np.mean(X, axis=0) over the nt rows of
the flattened input. -/
def timeMean (nt : ℕ) (X : ℕ → ℕ → ℚ) : ℕ → ℚ :=
  fun j => (∑ i ∈ Finset.range nt, X i j) / (nt : ℚ)

/-- Embeds POD_standard.reshape_and_remove_mean: subtract the per-column
temporal mean of the passed data from each row and return the transposed
matrix together with that recomputed mean. -/
def removeMean (nt : ℕ) (X : ℕ → ℕ → ℚ) : (ℕ → ℕ → ℚ) × (ℕ → ℚ) :=
  (fun j t => X t j - timeMean nt X j, timeMean nt X)

/-- Embeds POD_standard.compute_coeffs: demean the projection input via
reshape_and_remove_mean, then a = matmul(transpose(phi), X); returns
(coefficients, modes, mean). -/
def computeCoeffs (phi : ℕ → ℕ → ℚ) (nxv nt : ℕ) (X : ℕ → ℕ → ℚ) :
    (ℕ → ℕ → ℚ) × (ℕ → ℕ → ℚ) × (ℕ → ℚ) :=
  ((fun k t => ∑ j ∈ Finset.range nxv, phi j k * (removeMean nt X).1 j t),
    phi, (removeMean nt X).2)

/-- Data used at fit time in the C6 counterexample: two snapshots 0 and 2,
whose temporal mean is 1. -/
def fitData : ℕ → ℕ → ℚ :=
  fun t _ => if t = 0 then 0 else 2

/-- Data projected in the C6 counterexample: two snapshots 4 and 6, whose
temporal mean is 5 (different from the fit-time mean 1). -/
def projData : ℕ → ℕ → ℚ :=
  fun t _ => if t = 0 then 4 else 6

/-! ## Theorems: C6 projection mean -/

/-- C6 counterexample: projecting data whose mean differs from the fit-time
mean, the coefficient computed by the code (which recomputes the mean from
the projection input) differs from the value the claim prescribes (which
subtracts the mean captured at fit time): with a single unit mode, fit data
of mean 1 and projection data of mean 5, the code yields 4 - 5 = -1 while
the claim prescribes 4 - 1 = 3. -/
theorem C6_counterexample :
    (removeMean 2 fitData).2 0 = 1 ∧
    (removeMean 2 projData).2 0 = 5 ∧
    (computeCoeffs (fun _ _ => 1) 1 2 projData).1 0 0 = -1 ∧
    (∑ j ∈ Finset.range 1, (1 : ℚ) * (projData 0 j - (removeMean 2 fitData).2 j)) = 3 ∧
    (computeCoeffs (fun _ _ => 1) 1 2 projData).1 0 0
      ≠ ∑ j ∈ Finset.range 1, (1 : ℚ) * (projData 0 j - (removeMean 2 fitData).2 j) := by
  have h1 : (removeMean 2 fitData).2 0 = 1 := by
    norm_num [removeMean, timeMean, fitData, Finset.sum_range_succ]
  have h2 : (removeMean 2 projData).2 0 = 5 := by
    norm_num [removeMean, timeMean, projData, Finset.sum_range_succ]
  have h3 : (computeCoeffs (fun _ _ => 1) 1 2 projData).1 0 0 = -1 := by
    norm_num [computeCoeffs, removeMean, timeMean, projData, Finset.sum_range_succ]
  have h4 : (∑ j ∈ Finset.range 1, (1 : ℚ) * (projData 0 j - (removeMean 2 fitData).2 j))
      = 3 := by
    norm_num [removeMean, timeMean, projData, fitData, Finset.sum_range_succ]
  refine ⟨h1, h2, h3, h4, ?_⟩
  rw [h3, h4]
  norm_num

/-- C6 amended: the projection computes coefficients = transpose(Phi) applied
to the demeaned input, where the subtracted mean is recomputed from the
projection input by the fit-time policy (per-column temporal mean) rather
than loaded from a persisted fit-time value; that recomputed mean is what is
returned. Since the persisted modes are real, transpose coincides with
conjugate transpose. -/
theorem C6_projection (phi X : ℕ → ℕ → ℚ) (nxv nt k t : ℕ) :
    (computeCoeffs phi nxv nt X).1 k t
      = ∑ j ∈ Finset.range nxv, phi j k * (X t j - timeMean nt X j) ∧
    (computeCoeffs phi nxv nt X).2.2 = timeMean nt X ∧
    (computeCoeffs phi nxv nt X).2.1 = phi :=
  ⟨rfl, rfl, rfl⟩

/-! ## One-sided spectrum correction (end of Standard._compute_blocks) -/

/-- Modelled from the spec: the number of retained frequency bins, set by the
SPOD base class (not under src): all n_dft bins in full-spectrum mode,
floor(n_dft/2) + 1 otherwise. -/
def nFreq (n_dft : ℕ) (fullspectrum : Bool) : ℕ :=
  if fullspectrum then n_dft else n_dft / 2 + 1

/-- Embeds the one-sided correction of Standard._compute_blocks: after
truncation to n_freq bins, if the data is real-valued the bins with index
1 .. n_freq - 2 (the python slice 1:-1 of a length n_freq array) are doubled;
there is no full-spectrum guard in the source. Coefficients are complex,
modelled as pairs of rationals. -/
def oneSidedCorrection (isrealx : Bool) (n_freq : ℕ) (q : ℕ → ℚ × ℚ) : ℕ → ℚ × ℚ :=
  fun j =>
    if isrealx then
      if 1 ≤ j ∧ j + 1 < n_freq then (2 * (q j).1, 2 * (q j).2) else q j
    else q j

/-! ## Theorems: C3 one-sided correction -/

/-- C3 counterexample: in full-spectrum mode with real-valued input and
n_dft = 4, all 4 bins are retained but bin 1 is still doubled (the source
gates the doubling only on is_real), contradicting the claim that no
doubling occurs when full-spectrum mode is requested. -/
theorem C3_counterexample :
    nFreq 4 true = 4 ∧
    oneSidedCorrection true (nFreq 4 true) (fun _ => (1, 0)) 1 = ((2 : ℚ), (0 : ℚ)) ∧
    oneSidedCorrection true (nFreq 4 true) (fun _ => (1, 0)) 1 ≠ ((1 : ℚ), (0 : ℚ)) := by
  refine ⟨rfl, ?_, ?_⟩
  · show (if (1 ≤ 1 ∧ 1 + 1 < nFreq 4 true) then ((2 * 1 : ℚ), (2 * 0 : ℚ)) else (1, 0))
      = ((2 : ℚ), (0 : ℚ))
    rw [if_pos (by rw [show nFreq 4 true = 4 from rfl]; omega)]
    norm_num
  · show (if (1 ≤ 1 ∧ 1 + 1 < nFreq 4 true) then ((2 * 1 : ℚ), (2 * 0 : ℚ)) else (1, 0))
      ≠ ((1 : ℚ), (0 : ℚ))
    rw [if_pos (by rw [show nFreq 4 true = 4 from rfl]; omega)]
    intro h
    have h1 := congrArg Prod.fst h
    norm_num at h1

/-- C3 amended: for real-valued input the stage doubles exactly the retained
bins with index 1 through n_freq - 2. In one-sided mode with even n_dft these
are all retained bins except DC and Nyquist; with odd n_dft the last retained
bin (index n_dft/2, not a Nyquist bin) is also left undoubled. In
full-spectrum mode all n_dft bins are retained instead of floor(n_dft/2) + 1,
but for real input the doubling still occurs on bins 1 .. n_dft - 2.
Complex-valued input is never doubled. -/
theorem C3_one_sided (n_dft : ℕ) (q : ℕ → ℚ × ℚ) :
    (n_dft % 2 = 0 →
      (∀ j, 1 ≤ j → j < n_dft / 2 →
        oneSidedCorrection true (nFreq n_dft false) q j = (2 * (q j).1, 2 * (q j).2)) ∧
      oneSidedCorrection true (nFreq n_dft false) q 0 = q 0 ∧
      oneSidedCorrection true (nFreq n_dft false) q (n_dft / 2) = q (n_dft / 2)) ∧
    (n_dft % 2 = 1 →
      oneSidedCorrection true (nFreq n_dft false) q (n_dft / 2) = q (n_dft / 2)) ∧
    nFreq n_dft true = n_dft ∧
    (∀ j, 1 ≤ j → j + 1 < n_dft →
      oneSidedCorrection true (nFreq n_dft true) q j = (2 * (q j).1, 2 * (q j).2)) ∧
    (∀ nf j, oneSidedCorrection false nf q j = q j) := by
  have hnfF : nFreq n_dft false = n_dft / 2 + 1 := rfl
  have hnfT : nFreq n_dft true = n_dft := rfl
  refine ⟨fun _ => ⟨fun j hj1 hj2 => ?_, ?_, ?_⟩, fun _ => ?_, rfl,
    fun j hj1 hj2 => ?_, fun nf j => rfl⟩
  · have hcond : 1 ≤ j ∧ j + 1 < nFreq n_dft false := by
      rw [hnfF]
      omega
    simp [oneSidedCorrection, hcond]
  · simp [oneSidedCorrection]
  · have hcond : ¬(1 ≤ n_dft / 2 ∧ n_dft / 2 + 1 < nFreq n_dft false) := by
      rw [hnfF]
      omega
    simp [oneSidedCorrection, hcond]
  · have hcond : ¬(1 ≤ n_dft / 2 ∧ n_dft / 2 + 1 < nFreq n_dft false) := by
      rw [hnfF]
      omega
    simp [oneSidedCorrection, hcond]
  · have hcond : 1 ≤ j ∧ j + 1 < nFreq n_dft true := by
      rw [hnfT]
      omega
    simp [oneSidedCorrection, hcond]

/-- Witness for C3_one_sided at n_dft = 6 and a constant coefficient vector. -/
theorem C3_one_sided_witness :
    ((6 : ℕ) % 2 = 0 →
      (∀ j, 1 ≤ j → j < 6 / 2 →
        oneSidedCorrection true (nFreq 6 false) (fun _ => ((1 : ℚ), (1 : ℚ))) j
          = (2 * 1, 2 * 1)) ∧
      oneSidedCorrection true (nFreq 6 false) (fun _ => ((1 : ℚ), (1 : ℚ))) 0 = (1, 1) ∧
      oneSidedCorrection true (nFreq 6 false) (fun _ => ((1 : ℚ), (1 : ℚ))) (6 / 2)
        = (1, 1)) ∧
    ((6 : ℕ) % 2 = 1 →
      oneSidedCorrection true (nFreq 6 false) (fun _ => ((1 : ℚ), (1 : ℚ))) (6 / 2)
        = (1, 1)) ∧
    nFreq 6 true = 6 ∧
    (∀ j, 1 ≤ j → j + 1 < 6 →
      oneSidedCorrection true (nFreq 6 true) (fun _ => ((1 : ℚ), (1 : ℚ))) j
        = (2 * 1, 2 * 1)) ∧
    (∀ nf j, oneSidedCorrection false nf (fun _ => ((1 : ℚ), (1 : ℚ))) j = (1, 1)) :=
  C3_one_sided 6 (fun _ => (1, 1))

/-! ## Block cache (fft_block files: save loop of SPOD_low_ram.fit /
Standard.fit, load loop of the reuse path) -/

/-- One cached Fourier coefficient vector: the spatial vector saved for one
(block, frequency) pair, complex entries as pairs of rationals. -/
def CoefVec : Type := ℕ → ℚ × ℚ

/-- Embeds the save loop: for each block 0..n_blocks-1 and each frequency
0..n_freq-1, persist the coefficient vector cb b f under the key (b, f)
(the fft_block_freq file name), in the source's write order. cb stands for
the per-block DFT computation (compute_blocks), shared by both runs. -/
def saveAllBlocks (cb : ℕ → ℕ → CoefVec) (n_blocks n_freq : ℕ) :
    List ((ℕ × ℕ) × CoefVec) :=
  (List.range n_blocks).flatMap
    (fun b => (List.range n_freq).map (fun f => ((b, f), cb b f)))

/-- Embeds a cache-directory read of the file keyed by (block, frequency). -/
def cacheLookup (store : List ((ℕ × ℕ) × CoefVec)) (b f : ℕ) : Option CoefVec :=
  (store.find? (fun e => e.1.1 == b && e.1.2 == f)).map (fun e => e.2)

/-- Embeds the completeness probe _are_blocks_present: every file for the
configured (n_blocks, n_freq) must exist. -/
def blocksPresent (store : List ((ℕ × ℕ) × CoefVec)) (n_blocks n_freq : ℕ) : Bool :=
  (List.range n_blocks).all
    (fun b => (List.range n_freq).all (fun f => (cacheLookup store b f).isSome))

/-- Embeds the resume path: the ensemble entry Q_hat[f, x, b] is loaded from
the cached file for (b, f). -/
def loadQhat (store : List ((ℕ × ℕ) × CoefVec)) : ℕ → ℕ → ℕ → ℚ × ℚ :=
  fun f x b => ((cacheLookup store b f).getD (fun _ => (0, 0))) x

/-- Embeds the recomputation path: the ensemble entry Q_hat[f, x, b] is the
freshly computed coefficient. -/
def directQhat (cb : ℕ → ℕ → CoefVec) : ℕ → ℕ → ℕ → ℚ × ℚ :=
  fun f x b => cb b f x

/-- Looking up a key inside the one-block group of saved files finds exactly
the coefficient vector saved for that frequency. -/
theorem find_in_group (cb : ℕ → ℕ → CoefVec) (b f : ℕ) (l : List ℕ) (hmem : f ∈ l) :
    (l.map (fun fr => ((b, fr), cb b fr))).find? (fun e => e.1.1 == b && e.1.2 == f)
      = some ((b, f), cb b f) := by
  induction l with
  | nil => cases hmem
  | cons a t ih =>
    by_cases haf : a = f
    · subst haf
      simp [List.find?]
    · have hmem' : f ∈ t := by
        cases hmem with
        | head => exact absurd rfl haf
        | tail _ h => exact h
      have hpred : (((b, a), cb b a).1.1 == b && ((b, a), cb b a).1.2 == f) = false := by
        simp [haf]
      simp only [List.map_cons, List.find?]
      rw [hpred]
      exact ih hmem'

/-- Looking up a key of block b inside the group of another block finds
nothing. -/
theorem find_skip_group (cb : ℕ → ℕ → CoefVec) (b b' f : ℕ) (h : b' ≠ b) (l : List ℕ) :
    (l.map (fun fr => ((b', fr), cb b' fr))).find? (fun e => e.1.1 == b && e.1.2 == f)
      = none := by
  induction l with
  | nil => rfl
  | cons a t ih =>
    have hpred : (((b', a), cb b' a).1.1 == b && ((b', a), cb b' a).1.2 == f) = false := by
      simp [h]
    simp only [List.map_cons, List.find?]
    rw [hpred]
    exact ih

/-- A complete save pass round-trips: the cache lookup of any in-range
(block, frequency) key returns exactly the saved coefficient vector. -/
theorem cacheLookup_saveAllBlocks (cb : ℕ → ℕ → CoefVec) (n_blocks n_freq b f : ℕ)
    (hb : b < n_blocks) (hf : f < n_freq) :
    cacheLookup (saveAllBlocks cb n_blocks n_freq) b f = some (cb b f) := by
  have main : ∀ bs : List ℕ, b ∈ bs →
      ((bs.flatMap (fun bb => (List.range n_freq).map (fun fr => ((bb, fr), cb bb fr)))).find?
        (fun e => e.1.1 == b && e.1.2 == f)) = some ((b, f), cb b f) := by
    intro bs
    induction bs with
    | nil => intro hbs; cases hbs
    | cons a t ih =>
      intro hbs
      simp only [List.flatMap_cons, List.find?_append]
      by_cases hab : a = b
      · subst hab
        rw [find_in_group cb a f (List.range n_freq) (List.mem_range.mpr hf)]
        rfl
      · rw [find_skip_group cb b a f hab (List.range n_freq)]
        have hbt : b ∈ t := by
          cases hbs with
          | head => exact absurd rfl hab
          | tail _ h => exact h
        rw [ih hbt]
        rfl
  unfold cacheLookup saveAllBlocks
  rw [main (List.range n_blocks) (List.mem_range.mpr hb)]
  rfl

/-! ## Theorems: C5 cache idempotence -/

/-- C5: a fit that saved all blocks leaves a complete cache, and the resume
path that loads the cached per-(block, frequency) coefficients reproduces
the recomputation path exactly at every in-range ensemble index -- hence
every downstream quantity (modes included) agrees within any tolerance,
in particular 1e-10. -/
theorem C5_cache_idempotence (cb : ℕ → ℕ → CoefVec) (n_blocks n_freq f x b : ℕ)
    (hf : f < n_freq) (hb : b < n_blocks) :
    blocksPresent (saveAllBlocks cb n_blocks n_freq) n_blocks n_freq = true ∧
    loadQhat (saveAllBlocks cb n_blocks n_freq) f x b = directQhat cb f x b ∧
    |(loadQhat (saveAllBlocks cb n_blocks n_freq) f x b).1 - (directQhat cb f x b).1|
      ≤ 1 / 10 ^ 10 ∧
    |(loadQhat (saveAllBlocks cb n_blocks n_freq) f x b).2 - (directQhat cb f x b).2|
      ≤ 1 / 10 ^ 10 := by
  have hload : loadQhat (saveAllBlocks cb n_blocks n_freq) f x b = directQhat cb f x b := by
    unfold loadQhat directQhat
    rw [cacheLookup_saveAllBlocks cb n_blocks n_freq b f hb hf]
    rfl
  refine ⟨?_, hload, ?_, ?_⟩
  · unfold blocksPresent
    rw [List.all_eq_true]
    intro bb hbb
    rw [List.all_eq_true]
    intro ff hff
    rw [cacheLookup_saveAllBlocks cb n_blocks n_freq bb ff
      (List.mem_range.mp hbb) (List.mem_range.mp hff)]
    rfl
  · rw [hload]
    simp
  · rw [hload]
    simp

/-- Witness for C5_cache_idempotence at a concrete two-block, two-frequency
configuration. -/
theorem C5_cache_idempotence_witness :
    blocksPresent
      (saveAllBlocks (fun b f x => ((b + f : ℕ), (x : ℚ))) 2 2) 2 2 = true ∧
    loadQhat (saveAllBlocks (fun b f x => ((b + f : ℕ), (x : ℚ))) 2 2) 1 0 1
      = directQhat (fun b f x => ((b + f : ℕ), (x : ℚ))) 1 0 1 ∧
    |(loadQhat (saveAllBlocks (fun b f x => ((b + f : ℕ), (x : ℚ))) 2 2) 1 0 1).1
      - (directQhat (fun b f x => ((b + f : ℕ), (x : ℚ))) 1 0 1).1| ≤ 1 / 10 ^ 10 ∧
    |(loadQhat (saveAllBlocks (fun b f x => ((b + f : ℕ), (x : ℚ))) 2 2) 1 0 1).2
      - (directQhat (fun b f x => ((b + f : ℕ), (x : ℚ))) 1 0 1).2| ≤ 1 / 10 ^ 10 :=
  C5_cache_idempotence (fun b f x => ((b + f : ℕ), (x : ℚ))) 2 2 1 0 1
    (by decide) (by decide)

/-! ## CSD/Eigen engine: eigenpair reordering (Standard._compute_standard_spod) -/

/-- Embeds idx = np.argsort(Lf)[::-1]: the stable ascending argsort of one
frequency's eigenvalue row (as indices into the row), reversed, i.e. the
permutation that sorts the eigenvalues descending. -/
def argsortDesc (l : List ℚ) : List ℕ :=
  ((List.range l.length).insertionSort (fun i j => l.getD i 0 ≤ l.getD j 0)).reverse

/-- Embeds L[f, :] = L[f, idx]: the eigenvalue row reordered by the
descending argsort. -/
def reorderEigs (l : List ℚ) : List ℚ :=
  (argsortDesc l).map (fun i => l.getD i 0)

/-- Embeds vf = vf[:, idx]: the eigenvector matrix of one frequency with its
columns reordered by the same index list. Entries are complex, modelled as
pairs of rationals. -/
def reorderCols (V : ℕ → ℕ → ℚ × ℚ) (l : List ℚ) : ℕ → ℕ → ℚ × ℚ :=
  fun r k => V r ((argsortDesc l).getD k 0)

/-- Embeds self._eigs = np.abs(L): the persisted eigenvalue sequence for one
frequency. -/
def persistedEigs (l : List ℚ) : List ℚ :=
  (reorderEigs l).map (fun x => |x|)

/-- The descending argsort is a permutation of the index range. -/
theorem argsortDesc_perm (l : List ℚ) :
    (argsortDesc l).Perm (List.range l.length) :=
  (List.reverse_perm _).trans (List.perm_insertionSort _ _)

/-- Every index produced by the descending argsort is in range. -/
theorem mem_argsortDesc {l : List ℚ} {i : ℕ} (h : i ∈ argsortDesc l) :
    i < l.length := by
  unfold argsortDesc at h
  rw [List.mem_reverse, List.mem_insertionSort, List.mem_range] at h
  exact h

/-- The reordered eigenvalue row is sorted non-increasing. -/
theorem reorderEigs_pairwise (l : List ℚ) :
    (reorderEigs l).Pairwise (fun a b => b ≤ a) := by
  haveI hTot : IsTotal ℕ (fun i j => l.getD i 0 ≤ l.getD j 0) :=
    ⟨fun i j => le_total _ _⟩
  haveI hTr : IsTrans ℕ (fun i j => l.getD i 0 ≤ l.getD j 0) :=
    ⟨fun i j k hij hjk => le_trans hij hjk⟩
  have h1 := List.sorted_insertionSort
    (fun i j => l.getD i 0 ≤ l.getD j 0) (List.range l.length)
  have h2 : (argsortDesc l).Pairwise (fun i j => l.getD j 0 ≤ l.getD i 0) := by
    unfold argsortDesc
    rw [List.pairwise_reverse]
    exact h1
  unfold reorderEigs
  rw [List.pairwise_map]
  exact h2

/-- Every reordered eigenvalue is an element of the original row. -/
theorem mem_of_mem_reorderEigs {l : List ℚ} {x : ℚ} (h : x ∈ reorderEigs l) :
    x ∈ l := by
  unfold reorderEigs at h
  rw [List.mem_map] at h
  obtain ⟨i, hi, rfl⟩ := h
  have hlt := mem_argsortDesc hi
  rw [List.getD_eq_getElem _ _ hlt]
  exact List.getElem_mem hlt

/-! ## Theorems: C2 eigenvalue ordering -/

/-- C2: for any eigenvalue row that is non-negative within the floating
tolerance 1e-10 (all entries at least -1e-10, the premise the spec states
for the eigendecomposition of the positive semi-definite CSD matrix), the
persisted sequence self._eigs = np.abs of the reordered row is non-negative
and non-increasing in magnitude within the same tolerance; the descending
argsort is a permutation of the column indices, and the eigenvector columns
are reordered through exactly that same index list as the eigenvalues. -/
theorem C2_eig_ordering (l : List ℚ) (V : ℕ → ℕ → ℚ × ℚ)
    (h : ∀ x ∈ l, -(1 / 10 ^ 10) ≤ x) :
    (∀ i j, i ≤ j → j < (persistedEigs l).length →
      (persistedEigs l).getD j 0 ≤ (persistedEigs l).getD i 0 + 1 / 10 ^ 10) ∧
    (∀ x ∈ persistedEigs l, 0 ≤ x) ∧
    (argsortDesc l).Perm (List.range l.length) ∧
    (∀ r k, reorderCols V l r k = V r ((argsortDesc l).getD k 0)) ∧
    (∀ k, k < (argsortDesc l).length →
      (reorderEigs l).getD k 0 = l.getD ((argsortDesc l).getD k 0) 0) := by
  have hlenp : (persistedEigs l).length = (reorderEigs l).length := by
    unfold persistedEigs
    exact List.length_map _ _
  have habs : ∀ j, (hj : j < (reorderEigs l).length) →
      (persistedEigs l).getD j 0 = |(reorderEigs l)[j]| := by
    intro j hj
    have hj' : j < (persistedEigs l).length := by rw [hlenp]; exact hj
    rw [List.getD_eq_getElem _ _ hj']
    unfold persistedEigs
    rw [List.getElem_map]
  have hmemre : ∀ j, (hj : j < (reorderEigs l).length) →
      -(1 / 10 ^ 10) ≤ (reorderEigs l)[j] := by
    intro j hj
    exact h _ (mem_of_mem_reorderEigs (List.getElem_mem hj))
  have hpair := List.pairwise_iff_getElem.mp (reorderEigs_pairwise l)
  refine ⟨?_, ?_, argsortDesc_perm l, fun r k => rfl, ?_⟩
  · intro i j hij hj
    have hj' : j < (reorderEigs l).length := by rw [← hlenp]; exact hj
    have hi' : i < (reorderEigs l).length := lt_of_le_of_lt hij hj'
    rw [habs j hj', habs i hi']
    rcases lt_or_eq_of_le hij with hlt | heq
    · have hle : (reorderEigs l)[j] ≤ (reorderEigs l)[i] := hpair i j hi' hj' hlt
      have hjtol := hmemre j hj'
      rcases le_or_lt 0 ((reorderEigs l)[j]) with hsgn | hsgn
      · have h1 : |(reorderEigs l)[j]| = (reorderEigs l)[j] := abs_of_nonneg hsgn
        have h2 : (reorderEigs l)[i] ≤ |(reorderEigs l)[i]| := le_abs_self _
        have htolpos : (0 : ℚ) ≤ 1 / 10 ^ 10 := by norm_num
        rw [h1]
        linarith
      · have h1 : |(reorderEigs l)[j]| = -(reorderEigs l)[j] := abs_of_neg hsgn
        have h2 : (0 : ℚ) ≤ |(reorderEigs l)[i]| := abs_nonneg _
        rw [h1]
        linarith
    · subst heq
      have htolpos : (0 : ℚ) ≤ 1 / 10 ^ 10 := by norm_num
      linarith
  · intro x hx
    unfold persistedEigs at hx
    rw [List.mem_map] at hx
    obtain ⟨y, _, rfl⟩ := hx
    exact abs_nonneg y
  · intro k hk
    have hk' : k < (reorderEigs l).length := by
      unfold reorderEigs
      rw [List.length_map]
      exact hk
    rw [List.getD_eq_getElem _ _ hk']
    unfold reorderEigs
    rw [List.getElem_map, List.getD_eq_getElem _ _ hk]

/-- Witness for C2_eig_ordering at the eigenvalue row [1, 3, 0] and a
concrete eigenvector matrix. -/
theorem C2_eig_ordering_witness :
    (∀ x ∈ [(1 : ℚ), 3, 0], -(1 / 10 ^ 10) ≤ x) ∧
    ((∀ i j, i ≤ j → j < (persistedEigs [(1 : ℚ), 3, 0]).length →
      (persistedEigs [(1 : ℚ), 3, 0]).getD j 0
        ≤ (persistedEigs [(1 : ℚ), 3, 0]).getD i 0 + 1 / 10 ^ 10) ∧
    (∀ x ∈ persistedEigs [(1 : ℚ), 3, 0], 0 ≤ x) ∧
    (argsortDesc [(1 : ℚ), 3, 0]).Perm (List.range (List.length [(1 : ℚ), 3, 0])) ∧
    (∀ r k, reorderCols (fun r k => ((r : ℚ), (k : ℚ))) [(1 : ℚ), 3, 0] r k
      = (fun r k => ((r : ℚ), (k : ℚ))) r ((argsortDesc [(1 : ℚ), 3, 0]).getD k 0)) ∧
    (∀ k, k < (argsortDesc [(1 : ℚ), 3, 0]).length →
      (reorderEigs [(1 : ℚ), 3, 0]).getD k 0
        = List.getD [(1 : ℚ), 3, 0] ((argsortDesc [(1 : ℚ), 3, 0]).getD k 0) 0)) :=
  ⟨by
    intro x hx
    simp only [List.mem_cons, List.not_mem_nil, or_false] at hx
    rcases hx with rfl | rfl | rfl <;> norm_num,
  C2_eig_ordering [(1 : ℚ), 3, 0] (fun r k => ((r : ℚ), (k : ℚ))) (by
    intro x hx
    simp only [List.mem_cons, List.not_mem_nil, or_false] at hx
    rcases hx with rfl | rfl | rfl <;> norm_num)⟩

end PySPOD
